import Mathlib

/-!
Verification of the two halo2 example circuits of this repository
(`src/fibonacci.rs` and `src/range_check.rs`) against their
natural-language specification.

The circuit descriptions (column layout, selector enables, gate
polynomials, witness assignment order) are embedded shallowly from
the Rust source.  The external constraint-checking engine (halo2's
`MockProver`) is not part of the repository; its validation semantics
are modelled from the spec: a circuit is satisfied iff every gate
polynomial vanishes on each row where its selector is enabled, every
queried cell on such a row is assigned, and every instance binding
matches the supplied public input; failures are reported as a
structured list naming gate, region, row offset and cell value.
-/

/-- The order of the Pallas base field: the modulus of `halo2_proofs::pasta::Fp`,
the field both test modules instantiate the circuits with. -/
def pastaFpOrder : ℕ :=
  0x40000000000000000000000000000000224698fc094cf91b992d30ed00000001

/-- The field `halo2_proofs::pasta::Fp` used by the tests, as the integers
modulo the Pallas base-field order. -/
abbrev Fp : Type := ZMod pastaFpOrder

/-- The three advice columns `col_a`, `col_b`, `col_c` allocated by
`FibonacciChip::configure`. -/
inductive Col : Type where
  | a : Col
  | b : Col
  | c : Col
deriving DecidableEq, Repr

/-- An `AssignedCell<F, F>`: the (column, row-offset) coordinate of an advice
assignment inside the region together with the witness value recorded there. -/
structure AssignedCell (F : Type) where
  col : Col
  row : ℕ
  value : F
deriving DecidableEq, Repr

/-- The generic two-seed linear recurrence `t 0 = x`, `t 1 = y`,
`t (k+2) = t k + t (k+1)`. -/
def fib2 {F : Type} [CommRing F] (x y : F) : ℕ → F
  | 0 => x
  | 1 => y
  | k + 2 => fib2 x y k + fib2 x y (k + 1)

/-- The recurrence with the seeds `(F::ZERO, F::ONE)` hard-coded by
`FibonacciChip::assign_row`. -/
def fibSeq (F : Type) [CommRing F] : ℕ → F := fib2 0 1

/-- The body of the `for _i in 2..nrows` loop of `FibonacciChip::assign_row`,
run `k` times: each iteration assigns `c = a + b` at row offset 0 of `col_c`
and copy-shifts `(a, b) := (b, c)`.  Returns the final `b_cell` together with
the list of `c` assignments in the order they were made. -/
def assignRowAux {F : Type} [CommRing F] :
    ℕ → AssignedCell F → AssignedCell F → AssignedCell F × List (AssignedCell F)
  | 0, _, bCell => (bCell, [])
  | k + 1, aCell, bCell =>
    let cCell : AssignedCell F := ⟨Col.c, 0, aCell.value + bCell.value⟩
    let rest := assignRowAux k bCell cCell
    (rest.1, cCell :: rest.2)

/-- The region produced by `FibonacciChip::assign_row`: the rows on which the
selector was enabled, the advice assignments in order (later assignments to
the same cell overwrite earlier ones), and the returned `AssignedCell`. -/
structure FiboRegion (F : Type) where
  selectorRows : List ℕ
  assignments : List (AssignedCell F)
  outCell : AssignedCell F
deriving Repr

/-- `FibonacciChip::assign_row`: enables the selector on rows 0 and 1, assigns
the seeds `a = F::ZERO` and `b = F::ONE` at row 0, then runs the addition loop
`for _i in 2..nrows` (every `c` is assigned at row offset 0 of `col_c`),
returning the final cell. -/
def assign_row (F : Type) [CommRing F] (nrows : ℕ) : FiboRegion F :=
  let aCell : AssignedCell F := ⟨Col.a, 0, 0⟩
  let bCell : AssignedCell F := ⟨Col.b, 0, 1⟩
  let steps := assignRowAux (nrows - 2) aCell bCell
  ⟨[0, 1], aCell :: bCell :: steps.2, steps.1⟩

/-- The value held by the witness table at a (column, row) coordinate after
all assignments have been executed in order: the last write wins; `none`
means the cell was never assigned. -/
def tableLookup {F : Type} (assignments : List (AssignedCell F))
    (col : Col) (r : ℕ) : Option F :=
  ((assignments.filter fun cl => decide (cl.col = col ∧ cl.row = r)).getLast?).map
    (fun cl => cl.value)

/-- The `add` gate of `FibonacciChip::configure`, `s * (a + b - c)`, checked
on one selector-enabled row: the constraint holds iff all three queried cells
are assigned and `a + b - c = 0` (a row with an unassigned queried cell is a
`CellNotAssigned` failure, hence not satisfied). -/
def fiboGateHolds {F : Type} [CommRing F] [DecidableEq F]
    (tbl : Col → ℕ → Option F) (r : ℕ) : Bool :=
  match tbl Col.a r, tbl Col.b r, tbl Col.c r with
  | some av, some bv, some cv => decide (av + bv - cv = 0)
  | _, _, _ => false

/-- Modelled from the spec: the external engine's satisfaction check for the
Fibonacci circuit, which is not part of this repository.  Mirrors
`FiboCircuit::synthesize` followed by the engine's `run`: synthesize the
region with `assign_row` (the source hard-codes `nrows = 10`; it is kept as a
parameter here), check the `add` gate on every selector-enabled row, and
check the single instance binding made by `expose_public(out_cell, 2)`: the
table value at the returned cell's coordinate must equal the public input at
instance row 2. -/
def fiboVerify (F : Type) [CommRing F] [DecidableEq F]
    (nrows : ℕ) (pub : List F) : Bool :=
  let reg := assign_row F nrows
  (reg.selectorRows.all fun r => fiboGateHolds (tableLookup reg.assignments) r)
    && decide (tableLookup reg.assignments reg.outCell.col reg.outCell.row
        = some (pub.getD 2 0))

/-- The `range_check_gate` polynomial of `RangeChip::configure`:
`(1..RANGE).fold(value, |expr, i| expr * (Constant(F::from(i)) - value))`,
i.e. the fold over `i = 1, …, RANGE-1` whose initial accumulator is the
`value` expression itself. -/
def range_check_poly {F : Type} [CommRing F] (RANGE : ℕ) (value : F) : F :=
  (List.range' 1 (RANGE - 1)).foldl
    (fun (expr : F) (i : ℕ) => expr * ((i : F) - value)) value

/-- Modelled from the spec: one entry of the structured failure list returned
by the external engine's `run`, naming the offending gate, region, row offset
and cell value. -/
structure VerifyFailure (F : Type) where
  gate : String
  region : String
  rowOffset : ℕ
  cellValue : F
deriving DecidableEq, Repr

/-- The region produced by `RangeChip::assign`: selector-enabled rows and the
(row, value) assignments to the single advice column. -/
structure RangeRegion (F : Type) where
  selectorRows : List ℕ
  cells : List (ℕ × F)
deriving DecidableEq, Repr

/-- `RangeChip::assign` (as invoked by `RangeCircuit::synthesize`): enable
`q_check` on row 0 of the region `"range check region"` and assign the value
at row 0 of the advice column. -/
def rangeAssign {F : Type} (v : F) : RangeRegion F := ⟨[0], [(0, v)]⟩

/-- The value of the advice column of the range region at row `r` (last
write wins). -/
def rangeCellAt {F : Type} (reg : RangeRegion F) (r : ℕ) : Option F :=
  ((reg.cells.filter fun p => decide (p.1 = r)).getLast?).map Prod.snd

/-- Modelled from the spec: the external engine's constraint check for the
range circuit, which is not part of this repository.  For each row where
`q_check` is enabled, the `range_check_gate` polynomial must vanish on the
assigned value; each violation is reported as one failure naming the gate,
the region `"range check region"`, the row offset, and the cell value. -/
def rangeFailures {F : Type} [CommRing F] [DecidableEq F]
    (RANGE : ℕ) (reg : RangeRegion F) : List (VerifyFailure F) :=
  reg.selectorRows.filterMap fun r =>
    match rangeCellAt reg r with
    | some v =>
      if range_check_poly RANGE v = 0 then none
      else some ⟨"range_check_gate", "range check region", r, v⟩
    | none => some ⟨"range_check_gate", "range check region", r, 0⟩

/-- The range circuit (synthesis with `RangeChip::assign` followed by the
engine's check) is satisfied on a witness value iff the failure list is
empty. -/
def rangeSatisfied (F : Type) [CommRing F] [DecidableEq F]
    (RANGE : ℕ) (v : F) : Prop :=
  rangeFailures RANGE (rangeAssign v) = []

instance : Fact (Nat.Prime 101) := ⟨by norm_num⟩

/-! ### Helper lemmas -/

/-- Folding multiplications of factors over a list equals the initial
accumulator times the product of the factors. -/
lemma foldl_mul_factor {F : Type} [CommRing F] (v : F) (l : List ℕ) :
    ∀ init : F,
      l.foldl (fun (e : F) (i : ℕ) => e * ((i : F) - v)) init
        = init * (l.map fun (i : ℕ) => ((i : F) - v)).prod := by
  induction l with
  | nil => intro init; simp
  | cons x xs ih =>
    intro init
    rw [List.foldl_cons, List.map_cons, List.prod_cons, ih, mul_assoc]

/-- The range-check gate polynomial is the value times the product of the
factors `(i - value)` for `i = 1, …, RANGE-1`. -/
lemma range_check_poly_eq_prod {F : Type} [CommRing F] (RANGE : ℕ) (v : F) :
    range_check_poly RANGE v
      = v * ((List.range' 1 (RANGE - 1)).map fun (i : ℕ) => ((i : F) - v)).prod :=
  foldl_mul_factor v (List.range' 1 (RANGE - 1)) v

/-- The two-step unfolding equation of the recurrence. -/
lemma fib2_add_two {F : Type} [CommRing F] (x y : F) (k : ℕ) :
    fib2 x y (k + 2) = fib2 x y k + fib2 x y (k + 1) := rfl

/-- Shifting the two-seed recurrence one step: the sequence seeded by
`(y, x + y)` is the sequence seeded by `(x, y)` advanced by one index. -/
lemma fib2_shift {F : Type} [CommRing F] (x y : F) :
    ∀ k : ℕ, fib2 y (x + y) k = fib2 x y (k + 1) := by
  intro k
  induction k using Nat.twoStepInduction with
  | zero => rfl
  | one => rfl
  | more n ih1 ih2 =>
    show fib2 y (x + y) (n + 2) = fib2 x y (n + 1 + 2)
    rw [fib2_add_two, fib2_add_two x y (n + 1), ih1, ih2]

/-- The value of the cell returned by the addition loop is the `(k+1)`-st
term of the recurrence seeded by the two input cells' values. -/
lemma assignRowAux_fst_value {F : Type} [CommRing F] :
    ∀ (k : ℕ) (aC bC : AssignedCell F),
      (assignRowAux k aC bC).1.value = fib2 aC.value bC.value (k + 1) := by
  intro k
  induction k with
  | zero => intro aC bC; rfl
  | succ n ih =>
    intro aC bC
    simp only [assignRowAux]
    rw [ih]
    exact fib2_shift aC.value bC.value (n + 1)

/-- The `c` assignments made by the addition loop, in order: the `j`-th one
is at row offset 0 of `col_c` and holds the `(j+2)`-nd recurrence term. -/
lemma assignRowAux_snd {F : Type} [CommRing F] :
    ∀ (k : ℕ) (aC bC : AssignedCell F),
      (assignRowAux k aC bC).2
        = (List.range k).map fun j =>
            (⟨Col.c, 0, fib2 aC.value bC.value (j + 2)⟩ : AssignedCell F) := by
  intro k
  induction k with
  | zero => intro aC bC; rfl
  | succ n ih =>
    intro aC bC
    simp only [assignRowAux]
    rw [ih, List.range_succ_eq_map, List.map_cons, List.map_map]
    refine List.cons_eq_cons.mpr ⟨rfl, ?_⟩
    refine List.map_congr_left fun j hj => ?_
    exact congrArg (fun t => (⟨Col.c, 0, t⟩ : AssignedCell F))
      (fib2_shift aC.value bC.value (j + 2))

/-- The range circuit is satisfied exactly when the gate polynomial
vanishes on the assigned witness value. -/
lemma rangeSatisfied_iff_poly {F : Type} [CommRing F] [DecidableEq F]
    (RANGE : ℕ) (v : F) :
    rangeSatisfied F RANGE v ↔ range_check_poly RANGE v = 0 := by
  by_cases h : range_check_poly RANGE v = 0 <;>
    simp [rangeSatisfied, rangeFailures, rangeAssign, rangeCellAt, h]

/-! ### Claims -/

/-- C1: the spec claims that for the sequence-relation circuit the final
exposed public value equals the n-th recurrence term, concretely that with
seeds `(1, 1)` and `n = 10` the exposed value is 55 and verification against
public inputs `[1, 1, 55]` succeeds.  Evaluating the code at that input
shows otherwise: `assign_row` hard-codes the seeds `(0, 1)` and assigns
every `c` at row offset 0 of `col_c` (each loop step overwriting the last),
so the cell bound to instance row 2 holds 34, the `add` gate is violated at
row 0 (`0 + 1 ≠ 34`), and verification of `[1, 1, 55]` fails, contradicting
the test's own `prover.assert_satisfied()`. -/
theorem C1_fib_code_result :
    (assign_row Fp 10).outCell.value = 34
      ∧ fiboVerify Fp 10 [1, 1, 55] = false := by decide

/-- C2 counterexample: at `nrows = 4` the two addition steps do not land on
rows of their own — every assignment of `assign_row` is made at row offset
0, so the two `c` assignments collide at `(col_c, 0)` instead of occupying
one row each, refuting a region of `n` rows with each step on its own
row. -/
theorem C2_counterexample :
    ((assign_row Fp 4).assignments.map fun cl => (cl.col, cl.row))
      = [(Col.a, 0), (Col.b, 0), (Col.c, 0), (Col.c, 0)] := by decide

/-- C2 amended: given `n ≥ 2`, `assign_row` enables the selector on rows 0
and 1, assigns the seeds `a₀ = 0` and `b₀ = 1` at row 0, and each of the
`n - 2` subsequent steps assigns `c = a + b` at row offset 0 of `col_c`
(overwriting the previous step) while copy-shifting `(a, b)` to
`(previous b, previous c)`; the returned final cell holds the `(n-1)`-st
term of the recurrence seeded by `(0, 1)`. -/
theorem C2_assign_row_amended (F : Type) [CommRing F] (n : ℕ) (hn : 2 ≤ n) :
    (assign_row F n).selectorRows = [0, 1]
      ∧ (assign_row F n).assignments
          = ⟨Col.a, 0, 0⟩ :: ⟨Col.b, 0, 1⟩ ::
              ((List.range (n - 2)).map fun j =>
                (⟨Col.c, 0, fibSeq F (j + 2)⟩ : AssignedCell F))
      ∧ (assign_row F n).outCell.value = fibSeq F (n - 1) := by
  refine ⟨rfl, ?_, ?_⟩
  · show (⟨Col.a, 0, 0⟩ : AssignedCell F) :: ⟨Col.b, 0, 1⟩ ::
        (assignRowAux (n - 2) ⟨Col.a, 0, 0⟩ ⟨Col.b, 0, 1⟩).2 = _
    rw [assignRowAux_snd]
    rfl
  · show (assignRowAux (n - 2) ⟨Col.a, 0, 0⟩ ⟨Col.b, 0, 1⟩).1.value
        = fibSeq F (n - 1)
    have h : n - 2 + 1 = n - 1 := by omega
    rw [assignRowAux_fst_value, h]
    rfl

/-- C2 witness: the amended statement evaluated at `n = 3` over the field
with 101 elements. -/
theorem C2_assign_row_amended_witness :
    2 ≤ 3
      ∧ ((assign_row (ZMod 101) 3).selectorRows = [0, 1]
        ∧ (assign_row (ZMod 101) 3).assignments
            = ⟨Col.a, 0, 0⟩ :: ⟨Col.b, 0, 1⟩ ::
                ((List.range (3 - 2)).map fun j =>
                  (⟨Col.c, 0, fibSeq (ZMod 101) (j + 2)⟩ :
                    AssignedCell (ZMod 101)))
        ∧ (assign_row (ZMod 101) 3).outCell.value = fibSeq (ZMod 101) (3 - 1)) :=
  ⟨by norm_num, C2_assign_row_amended (ZMod 101) 3 (by norm_num)⟩

/-- C3 counterexample: the claim that 0 is not a root of the range-check
gate polynomial is false — the fold's initial accumulator is the value
expression itself, so at the assigned value 0 the polynomial evaluates to 0
and the circuit check reports no failure (matching the code's own
`test_range_check_1`, which asserts the circuit satisfied at 0). -/
theorem C3_counterexample :
    range_check_poly 8 (0 : Fp) = 0
      ∧ rangeFailures 8 (rangeAssign (0 : Fp)) = [] := by decide

/-- C3 amended: the gate polynomial as written is
`value * (1 - value) * ⋯ * (RANGE-1 - value)`, so 0 is a root along with
`1, …, RANGE-1`: for `RANGE = 8` every value with integer representative in
`{0, …, 7}` (0 included) makes the polynomial vanish and hence satisfies
the constraint. -/
theorem C3_roots_include_zero (k : ℕ) (hk : k < 8) :
    range_check_poly 8 ((k : Fp)) = 0 := by
  have h : ∀ m : ℕ, m < 8 → range_check_poly 8 ((m : Fp)) = 0 := by decide
  exact h k hk

/-- C3 witness: the amended statement evaluated at the representative 0. -/
theorem C3_roots_include_zero_witness :
    0 < 8 ∧ range_check_poly 8 ((0 : ℕ) : Fp) = 0 :=
  ⟨by norm_num, C3_roots_include_zero 0 (by norm_num)⟩

/-- C4: for any prime field and `RANGE ≥ 1`, the range-membership circuit
is satisfied exactly when the assigned value is the image of an integer in
`{0, …, RANGE-1}`; in particular for `RANGE = 8` the values 0 through 7
satisfy it. -/
theorem C4_range_satisfied_iff (F : Type) [Field F] [DecidableEq F]
    (RANGE : ℕ) (hR : 1 ≤ RANGE) (v : F) :
    rangeSatisfied F RANGE v ↔ ∃ k : ℕ, k < RANGE ∧ v = (k : F) := by
  rw [rangeSatisfied_iff_poly, range_check_poly_eq_prod]
  constructor
  · intro h
    rcases mul_eq_zero.mp h with hv | hp
    · exact ⟨0, by omega, by rw [hv, Nat.cast_zero]⟩
    · rw [List.prod_eq_zero_iff] at hp
      rcases List.mem_map.mp hp with ⟨i, hi, hzero⟩
      rw [List.mem_range'_1] at hi
      refine ⟨i, by omega, ?_⟩
      exact (sub_eq_zero.mp hzero).symm
  · rintro ⟨k, hk, rfl⟩
    rcases Nat.eq_zero_or_pos k with rfl | hkpos
    · rw [Nat.cast_zero, zero_mul]
    · refine mul_eq_zero.mpr (Or.inr ?_)
      rw [List.prod_eq_zero_iff]
      refine List.mem_map.mpr ⟨k, ?_, sub_self _⟩
      rw [List.mem_range'_1]
      omega

/-- C4 witness: the characterisation evaluated at `RANGE = 8` and the value
5 over the field with 101 elements. -/
theorem C4_range_satisfied_iff_witness :
    1 ≤ 8
      ∧ (rangeSatisfied (ZMod 101) 8 (5 : ZMod 101)
          ↔ ∃ k : ℕ, k < 8 ∧ (5 : ZMod 101) = (k : ZMod 101)) :=
  ⟨by norm_num, C4_range_satisfied_iff (ZMod 101) 8 (by norm_num) 5⟩

/-- C5: with `RANGE = 8`, assigning the out-of-range value 22 makes the
check fail with exactly one constraint violation, naming the
`range_check_gate` gate, the region `"range check region"`, row offset 0,
and the offending cell value 22. -/
theorem C5_range_fail_22 :
    rangeFailures 8 (rangeAssign (22 : Fp))
      = [⟨"range_check_gate", "range check region", 0, (22 : Fp)⟩] := by decide

/-- C6: the spec claims that after computing a valid Fibonacci witness,
incrementing the exposed public input leaves the gate constraints satisfied
and only the instance binding mismatched.  Evaluating the code shows the
witness it computes already violates the `add` gate at row 0 (the cell at
`(col_c, 0)` holds 34 while `a + b = 1` there), so the gate constraints do
not hold even before the mutation; verification with the incremented public
input `[1, 1, 56]` fails as well. -/
theorem C6_fib_gate_violated :
    fiboGateHolds (tableLookup (assign_row Fp 10).assignments) 0 = false
      ∧ fiboVerify Fp 10 [1, 1, 56] = false := by decide

/-- C7: when the row count passed to `assign_row` is at most 2, the loop
`for _i in 2..nrows` executes no addition step: the only assignments are the
two seeds and the returned cell is the seed `b` cell holding the field
element one. -/
theorem C7_assign_row_small (F : Type) [CommRing F] (n : ℕ) (hn : n ≤ 2) :
    (assign_row F n).outCell = ⟨Col.b, 0, 1⟩
      ∧ (assign_row F n).assignments = [⟨Col.a, 0, 0⟩, ⟨Col.b, 0, 1⟩] := by
  have h : n - 2 = 0 := Nat.sub_eq_zero_of_le hn
  constructor
  · show (assignRowAux (n - 2) ⟨Col.a, 0, 0⟩ ⟨Col.b, 0, 1⟩).1
        = (⟨Col.b, 0, 1⟩ : AssignedCell F)
    simp only [h]
    rfl
  · show (⟨Col.a, 0, 0⟩ : AssignedCell F) :: ⟨Col.b, 0, 1⟩ ::
        (assignRowAux (n - 2) ⟨Col.a, 0, 0⟩ ⟨Col.b, 0, 1⟩).2
        = [⟨Col.a, 0, 0⟩, ⟨Col.b, 0, 1⟩]
    simp only [h]
    rfl

/-- C7 witness: the boundary case `n = 2` over the field with 101
elements. -/
theorem C7_assign_row_small_witness :
    2 ≤ 2
      ∧ ((assign_row (ZMod 101) 2).outCell = ⟨Col.b, 0, 1⟩
        ∧ (assign_row (ZMod 101) 2).assignments
            = [⟨Col.a, 0, 0⟩, ⟨Col.b, 0, 1⟩]) :=
  ⟨by norm_num, C7_assign_row_small (ZMod 101) 2 (by norm_num)⟩

/-- C8: re-running the constraint check on the same circuit/witness pair
yields the identical result for both circuits: the embedded synthesis and
verification are pure functions of their inputs, with no hidden state. -/
theorem C8_run_deterministic (F : Type) [CommRing F] [DecidableEq F]
    (n : ℕ) (pub : List F) (RANGE : ℕ) (v : F) :
    fiboVerify F n pub = fiboVerify F n pub
      ∧ rangeFailures RANGE (rangeAssign v) = rangeFailures RANGE (rangeAssign v) :=
  ⟨rfl, rfl⟩

/-- C9: the Fibonacci circuit binds only instance row 2 (via
`expose_public(out_cell, 2)`); two verification runs whose public-input
lists agree at index 2 produce the same outcome regardless of the values at
indices 0 and 1. -/
theorem C9_only_instance_row2_matters (F : Type) [CommRing F] [DecidableEq F]
    (pub pub' : List F) (h : pub.getD 2 0 = pub'.getD 2 0) :
    fiboVerify F 10 pub = fiboVerify F 10 pub' := by
  simp only [fiboVerify]
  rw [h]

/-- C9 witness: the public inputs `[1, 1, 55]` and `[9, 9, 55]` differ only
at instance rows 0 and 1 and verify identically. -/
theorem C9_only_instance_row2_matters_witness :
    ([1, 1, 55] : List Fp).getD 2 0 = ([9, 9, 55] : List Fp).getD 2 0
      ∧ fiboVerify Fp 10 [1, 1, 55] = fiboVerify Fp 10 [9, 9, 55] :=
  ⟨by decide, C9_only_instance_row2_matters Fp [1, 1, 55] [9, 9, 55] (by decide)⟩

/-- C10: for `RANGE ≤ 1` the fold in `RangeChip::configure` runs over the
empty range `1..RANGE`, leaving the gate polynomial equal to the bare
advice value, so the circuit is satisfied exactly when the assigned value
is zero. -/
theorem C10_range_le_one (F : Type) [CommRing F] [DecidableEq F]
    (RANGE : ℕ) (hR : RANGE ≤ 1) (v : F) :
    range_check_poly RANGE v = v ∧ (rangeSatisfied F RANGE v ↔ v = 0) := by
  have h : RANGE - 1 = 0 := Nat.sub_eq_zero_of_le hR
  have hp : range_check_poly RANGE v = v := by
    unfold range_check_poly
    simp only [h]
    rfl
  refine ⟨hp, ?_⟩
  rw [rangeSatisfied_iff_poly, hp]

/-- C10 witness: the degenerate case `RANGE = 1` at the value 5 over the
field with 101 elements. -/
theorem C10_range_le_one_witness :
    1 ≤ 1
      ∧ (range_check_poly 1 (5 : ZMod 101) = 5
        ∧ (rangeSatisfied (ZMod 101) 1 (5 : ZMod 101) ↔ (5 : ZMod 101) = 0)) :=
  ⟨by norm_num, C10_range_le_one (ZMod 101) 1 (by norm_num) 5⟩
